import Mathlib

/-!
Verification of the declarative container / serialization mechanism of the
ctapipe repository (`ctapipe.core.Container` / `Item` / `Map`), as exercised by
`examples/notebooks/Container_examples.ipynb`.

The implementation of `Container`, `Item` and `Map` is not part of the visible
sources (only the notebook of example calls is), so the data model and the
operations below are modelled from the specification: a typed-field record type
with default-value instantiation, nested sub-records, insertion-ordered maps of
sub-records, recursive/flattening export to plain mappings, and bulk reset.

Two embeddings are developed:
* a pure tree embedding (`Value`, `Record`, `FieldList`, `EntryList`) for the
  functional claims (get/set, reset, export, ordered-map behaviour), and
* an explicit heap embedding (`HObj`, `Heap`, allocation and fuelled readback)
  for the aliasing / freshness / frame claims, where "deep copy" and "mutating
  one instance does not alter another" are statable.
-/

set_option autoImplicit false

namespace Cta

mutual

/-- Modelled from the spec: the values a container field can hold (the
implementation `ctapipe.core.Container`/`Item`/`Map` is missing from the
sources).  A `Value` is a scalar (integer or string), a numeric array, a
nested `Record` instance, or an insertion-ordered map (`EntryList`) from
integer keys to `Record` instances. -/
inductive Value where
  | vint (n : Int)
  | vstr (s : String)
  | varr (xs : List Int)
  | vrec (r : Record)
  | vmap (m : EntryList)

/-- Modelled from the spec: a `Record` instance owns one mutable slot per
declared field; each slot remembers its declared default (the `RecordType`
schema information) next to its current value. -/
inductive Record where
  | mk (fields : FieldList)

/-- Modelled from the spec: the ordered slot list of a `Record`: for each field
its name, its declared default (immutable template) and its current value. -/
inductive FieldList where
  | fnil
  | fcons (name : String) (dflt : Value) (cur : Value) (rest : FieldList)

/-- Modelled from the spec: an insertion-ordered map (`ctapipe.core.Map`) from
integer keys to `Record` values, represented as an association list in
insertion order. -/
inductive EntryList where
  | enil
  | econs (key : Int) (val : Record) (rest : EntryList)

end

open Value Record FieldList EntryList

/-- Modelled from the spec: a field descriptor (`Item`): name, default value
and human-readable description. -/
structure FieldSpec where
  name : String
  dflt : Value
  descr : String

/-- Modelled from the spec: a `RecordType` is a named, ordered sequence of
field descriptors. -/
abbrev RecordType := List FieldSpec

/-- Error taxonomy of the container API. -/
inductive CtaError where
  | unknownField (name : String)
  | keyNotFound (key : Int)
  deriving DecidableEq

/-- Build the slot list of a fresh instance: every slot starts as a (deep copy
of the) declared default. -/
def instFields : List FieldSpec → FieldList
  | [] => fnil
  | s :: rest => fcons s.name s.dflt s.dflt (instFields rest)

/-- Modelled from the spec: `instantiate()` allocates one slot per field spec,
each initialized to a fresh copy of the declared default. -/
def instantiate (rt : RecordType) : Record :=
  Record.mk (instFields rt)

/-- The slot list of a record. -/
def Record.fields : Record → FieldList
  | Record.mk fl => fl

/-- Declared field names, in declaration order. -/
def fieldNames : FieldList → List String
  | fnil => []
  | fcons n _ _ rest => n :: fieldNames rest

/-- Field names of a record. -/
def recNames (r : Record) : List String := fieldNames r.fields

/-- Current value of the first slot with the given name. -/
def slotAt : FieldList → String → Option Value
  | fnil, _ => none
  | fcons n _ c rest, f => if n = f then some c else slotAt rest f

/-- Declared default together with the current value of the first slot with
the given name. -/
def specAt : FieldList → String → Option (Value × Value)
  | fnil, _ => none
  | fcons n d c rest, f => if n = f then some (d, c) else specAt rest f

/-- Modelled from the spec: `get(field_name)` fails with `UnknownField` if the
name is not declared, and returns the current slot value otherwise. -/
def getField (r : Record) (f : String) : Except CtaError Value :=
  match slotAt r.fields f with
  | some v => .ok v
  | none => .error (.unknownField f)

/-- Replace the current value of the first slot with the given name. -/
def setSlot : FieldList → String → Value → Option FieldList
  | fnil, _, _ => none
  | fcons n d c rest, f, v =>
    if n = f then some (fcons n d v rest)
    else (setSlot rest f v).map (fcons n d c)

/-- Modelled from the spec: `set(field_name, value)` overwrites the slot and
fails with `UnknownField` for undeclared names (no implicit field creation). -/
def setField (r : Record) (f : String) (v : Value) : Except CtaError Record :=
  match setSlot r.fields f v with
  | some fl => .ok (Record.mk fl)
  | none => .error (.unknownField f)

/-- Keys of an ordered map, in iteration (= first-insertion) order. -/
def entKeys : EntryList → List Int
  | enil => []
  | econs k _ rest => k :: entKeys rest

/-- Number of entries of an ordered map. -/
def entSize : EntryList → Nat
  | enil => 0
  | econs _ _ rest => entSize rest + 1

/-- Modelled from the spec: ordered-map `get(key)`, failing with `KeyNotFound`
on an absent key. -/
def entGet : EntryList → Int → Except CtaError Record
  | enil, k => .error (.keyNotFound k)
  | econs k' r rest, k => if k' = k then .ok r else entGet rest k

/-- Modelled from the spec: ordered-map `set(key, value)`: re-setting an
existing key updates its value in place (the key keeps its position in
iteration order); a new key is appended at the end. -/
def entSet : EntryList → Int → Record → EntryList
  | enil, k, r => econs k r enil
  | econs k' r' rest, k, r =>
    if k' = k then econs k' r rest else econs k' r' (entSet rest k r)

/-- True for aggregate values (nested records and maps), which the default
export omits. -/
def aggB : Value → Bool
  | vrec _ => true
  | vmap _ => true
  | _ => false

mutual

/-- Modelled from the spec: `reset()` on a record — every slot is restored per
`resetSlot`. -/
def resetR : Record → Record
  | Record.mk fl => Record.mk (resetF fl)

/-- Reset every slot of a slot list (in declaration order, names and declared
defaults untouched). -/
def resetF : FieldList → FieldList
  | fnil => fnil
  | fcons n d c rest => fcons n d (resetSlot d c) (resetF rest)

/-- Modelled from the spec: resetting one slot — a nested `Record` slot is
reset in place (its own `reset()`), every record held in a map slot is reset
in place (keys and order untouched), and any other slot is replaced by a fresh
deep copy of the declared default. -/
def resetSlot (d : Value) : Value → Value
  | vrec r => vrec (resetR r)
  | vmap m => vmap (resetE m)
  | _ => d

/-- Reset every record held in an ordered map, in place. -/
def resetE : EntryList → EntryList
  | enil => enil
  | econs k r rest => econs k (resetR r) (resetE rest)

end

/-- A slot whose current value is not an aggregate must have a non-aggregate
declared default (the spec invariant that a slot holds a value of the same
shape/kind as its declared default). -/
def aggOk (d c : Value) : Bool :=
  if aggB c then true else !(aggB d)

mutual

/-- Well-formedness of a record: every slot kind agrees with its declared
default, recursively. -/
def wfR : Record → Bool
  | Record.mk fl => wfF fl

/-- Well-formedness of a slot list. -/
def wfF : FieldList → Bool
  | fnil => true
  | fcons _ d c rest => aggOk d c && wfV c && wfF rest

/-- Well-formedness of a value. -/
def wfV : Value → Bool
  | vrec r => wfR r
  | vmap m => wfE m
  | _ => true

/-- Well-formedness of the records held in an ordered map. -/
def wfE : EntryList → Bool
  | enil => true
  | econs _ r rest => wfR r && wfE rest

end

/-! ### Export to plain mappings (`as_dict`) -/

/-- First-match lookup in an exported flat mapping. -/
def lookupV : List (String × Value) → String → Option Value
  | [], _ => none
  | (n, v) :: rest, f => if n = f then some v else lookupV rest f

/-- Modelled from the spec: `as_mapping()` with default arguments
(`recursive=false`): the current value of every non-nested field, in
declaration order; nested-Record and Map fields are omitted entirely. -/
def asDict0 : FieldList → List (String × Value)
  | fnil => []
  | fcons n _ c rest =>
    if aggB c then asDict0 rest else (n, c) :: asDict0 rest

/-- The names of the fields whose current value is not a nested Record or
Map (the spec's words for the default export's key set). -/
def nonNestedNames : FieldList → List String
  | fnil => []
  | fcons n _ c rest =>
    if aggB c then nonNestedNames rest else n :: nonNestedNames rest

mutual

/-- A recursive (non-flattened) export value: a leaf scalar/array, or a
nested mapping. -/
inductive Export where
  | leaf (v : Value)
  | node (m : ExpList)

/-- A nested mapping produced by recursive export: association list from
string key to export value. -/
inductive ExpList where
  | xnil
  | xcons (k : String) (e : Export) (rest : ExpList)

end

open Export ExpList

/-- First-match lookup in a nested export mapping. -/
def xlookup : ExpList → String → Option Export
  | xnil, _ => none
  | xcons n e rest, f => if n = f then some e else xlookup rest f

/-- Keys of a nested export mapping, in order. -/
def xkeys : ExpList → List String
  | xnil => []
  | xcons n _ rest => n :: xkeys rest

mutual

/-- Modelled from the spec: `as_mapping(recursive=true, flatten=false)` on a
record — the tree-shape-preserving recursive export. -/
def asDictRecR : Record → ExpList
  | Record.mk fl => asDictRecF fl

/-- Recursive export of a slot list: every field is exported in place. -/
def asDictRecF : FieldList → ExpList
  | fnil => xnil
  | fcons n _ c rest => xcons n (exportSlot c) (asDictRecF rest)

/-- Recursive export of one slot: a nested Record becomes the recursive
export of itself, a Map field becomes a mapping from (stringified) key to the
recursive export of its Record value, anything else is a leaf. -/
def exportSlot : Value → Export
  | vrec r => node (asDictRecR r)
  | vmap m => node (expE m)
  | c => leaf c

/-- Recursive export of a map slot, in the map's iteration order. -/
def expE : EntryList → ExpList
  | enil => xnil
  | econs k r rest => xcons (toString k) (node (asDictRecR r)) (expE rest)

end

/-- Composite flatten keys: the path of field names (and map keys) joined
with the separator `"_"` (e.g. `image` under map key `5` under field `tel`
becomes `tel_5_image`). -/
def joinPath : List String → String
  | [] => ""
  | [s] => s
  | s :: s2 :: rest => s ++ "_" ++ joinPath (s2 :: rest)

mutual

/-- Flatten export of a slot list under an accumulated path (the spec's
"ordinary recursive tree traversal with a path accumulator"). -/
def flatF : List String → FieldList → List (String × Value)
  | _, fnil => []
  | path, fcons n _ c rest => flatSlot (path ++ [n]) c ++ flatF path rest

/-- Flatten export of one slot: aggregates recurse, leaves emit one entry
under the joined composite key. -/
def flatSlot : List String → Value → List (String × Value)
  | path, vrec r => flatR path r
  | path, vmap m => flatE path m
  | path, c => [(joinPath path, c)]

/-- Flatten export of a nested record. -/
def flatR : List String → Record → List (String × Value)
  | path, Record.mk fl => flatF path fl

/-- Flatten export of a map slot, in iteration order, each entry under its
stringified key. -/
def flatE : List String → EntryList → List (String × Value)
  | _, enil => []
  | path, econs k r rest => flatR (path ++ [toString k]) r ++ flatE path rest

end

/-- Modelled from the spec: `as_mapping(recursive=true, flatten=true)` — a
single-level mapping with composite path keys. -/
def asDictFlat (r : Record) : List (String × Value) :=
  flatF [] r.fields

mutual

/-- The leaf-field paths of a slot list (the claim-side description of the
flatten export's key set): one path per non-aggregate leaf, listing the field
names and map keys leading to it. -/
def lpF : FieldList → List (List String)
  | fnil => []
  | fcons n _ c rest => (lpSlot c).map (fun p => n :: p) ++ lpF rest

/-- The leaf paths of one slot, relative to the slot itself. -/
def lpSlot : Value → List (List String)
  | vrec r => lpR r
  | vmap m => lpE m
  | _ => [[]]

/-- The leaf paths of a nested record. -/
def lpR : Record → List (List String)
  | Record.mk fl => lpF fl

/-- The leaf paths of a map slot. -/
def lpE : EntryList → List (List String)
  | enil => []
  | econs k r rest => (lpR r).map (fun p => toString k :: p) ++ lpE rest

end

/-! ### The notebook's concrete record types -/

/-- `SubContainer` from the notebook: `junk = Item("nothing", "Some junk")`. -/
def SubContainerT : RecordType :=
  [⟨"junk", vstr "nothing", "Some junk"⟩]

/-- `EventContainer` from the notebook. -/
def EventContainerT : RecordType :=
  [⟨"event_id", vint (-1), "event id number"⟩,
   ⟨"tels_with_data", varr [], "list of telescopes with data"⟩,
   ⟨"sub", vrec (instantiate SubContainerT), "stuff"⟩,
   ⟨"tel", vmap enil, "telescopes"⟩]

/-- `TelContainer` from the notebook: `tel_id = Item(-1, ...)`,
`image = Item(np.zeros(10), ...)`. -/
def TelContainerT : RecordType :=
  [⟨"tel_id", vint (-1), "telescope ID number"⟩,
   ⟨"image", varr (List.replicate 10 0), "camera pixel data"⟩]

/-- The three `TelContainer` entries of the notebook, inserted under keys
`10`, `5`, `42` into an initially empty map. -/
def tel3 : EntryList :=
  entSet (entSet (entSet enil 10 (instantiate TelContainerT))
    5 (instantiate TelContainerT)) 42 (instantiate TelContainerT)

/-- The notebook's event record after the three `ev.tel[...] = TelContainer()`
insertions. -/
def evTel : Record :=
  match setField (instantiate EventContainerT) "tel" (vmap tel3) with
  | .ok r2 => r2
  | .error _ => instantiate EventContainerT

/-- The `TelContainer` instance after `image[:] = 9`. -/
def telNines : Record :=
  match setField (instantiate TelContainerT) "image"
      (varr (List.replicate 10 9)) with
  | .ok r2 => r2
  | .error _ => instantiate TelContainerT

/-- The notebook's event record after additionally doing
`ev.tel[5].image[:] = 9`. -/
def evTelMut : Record :=
  match setField (instantiate EventContainerT) "tel"
      (vmap (entSet tel3 5 telNines)) with
  | .ok r2 => r2
  | .error _ => instantiate EventContainerT

/-- A record instance with one integer field `g` (declared default `7`) whose
slot was mutated to `5`. -/
def innerBad : Record := Record.mk (fcons "g" (vint 7) (vint 5) fnil)

/-- A record whose field `f` has the mutated record `innerBad` as declared
default, while its slot currently holds the scalar `0` (a value explicitly
assigned by the user, as the spec's data-model invariant permits). -/
def outerBad : Record := Record.mk (fcons "f" (vrec innerBad) (vint 0) fnil)

/-- Probe: the integer currently held by `g` of the record held by the first
field (`0` when the shape does not match). -/
def probeG : Record → Int
  | Record.mk (fcons _ _ (vrec (Record.mk (fcons _ _ (vint n) _))) _) => n
  | _ => 0

/-- Read `r.tel[k].image` (the notebook's access path). -/
def imageOfTel (r : Record) (k : Int) : Option Value :=
  match getField r "tel" with
  | .ok (vmap m) =>
    match entGet m k with
    | .ok t =>
      match getField t "image" with
      | .ok v => some v
      | .error _ => none
    | .error _ => none
  | _ => none

/-! ### The heap embedding

The freshness/aliasing claims (deep copies at `instantiate()`, no shared
mutable state between instances, read-only export) are about object identity,
so they are settled over an explicit heap: addresses are indices into a list
of heap objects, allocation appends, mutation overwrites one address. -/

/-- A heap object: a scalar, an array, or an aggregate holding addresses of
its children. -/
inductive HObj where
  | hint (n : Int)
  | hstr (s : String)
  | harr (xs : List Int)
  | hrec (fs : List (String × Nat))
  | hmap (es : List (Int × Nat))

/-- A heap: object at address `a` is the list element at index `a`;
allocation appends at the end. -/
abbrev Heap := List HObj

/-- The addresses an object points to. -/
def ptrsOf : HObj → List Nat
  | HObj.hrec fs => fs.map Prod.snd
  | HObj.hmap es => es.map Prod.snd
  | _ => []

/-- In-place mutation of the object at one address. -/
def heapSet (h : Heap) (b : Nat) (o : HObj) : Heap := h.set b o

mutual

/-- Allocate a deep copy of a pure value into the heap, children first;
returns the extended heap and the address of the root object. -/
def allocV : Heap → Value → Heap × Nat
  | h, vint n => (h ++ [HObj.hint n], h.length)
  | h, vstr s => (h ++ [HObj.hstr s], h.length)
  | h, varr xs => (h ++ [HObj.harr xs], h.length)
  | h, vrec r => allocR h r
  | h, vmap m =>
    ((allocE h m).1 ++ [HObj.hmap (allocE h m).2], (allocE h m).1.length)

/-- Allocate a deep copy of a record: all slot values, then the record
object pointing at them. -/
def allocR : Heap → Record → Heap × Nat
  | h, Record.mk fl =>
    ((allocF h fl).1 ++ [HObj.hrec (allocF h fl).2], (allocF h fl).1.length)

/-- Allocate deep copies of all current slot values of a slot list; returns
the extended heap and the name/address pairs. -/
def allocF : Heap → FieldList → Heap × List (String × Nat)
  | h, fnil => (h, [])
  | h, fcons n _ c rest =>
    ((allocF (allocV h c).1 rest).1,
     (n, (allocV h c).2) :: (allocF (allocV h c).1 rest).2)

/-- Allocate deep copies of all records of an ordered map. -/
def allocE : Heap → EntryList → Heap × List (Int × Nat)
  | h, enil => (h, [])
  | h, econs k r rest =>
    ((allocE (allocR h r).1 rest).1,
     (k, (allocR h r).2) :: (allocE (allocR h r).1 rest).2)

end

/-- Modelled from the spec: `instantiate()` in the heap embedding — allocate
a fresh deep copy of the record type's defaults. -/
def instantiateH (h : Heap) (rt : RecordType) : Heap × Nat :=
  allocR h (instantiate rt)

mutual

/-- The content view of a value: what a record instance looks like with the
schema information (declared defaults) stripped — the readback type of the
heap embedding. -/
inductive Cv where
  | cint (n : Int)
  | cstr (s : String)
  | carr (xs : List Int)
  | crec (fs : CFields)
  | cmap (es : CEntries)

/-- Content view of a slot list: names and current-value contents. -/
inductive CFields where
  | cfnil
  | cfcons (name : String) (v : Cv) (rest : CFields)

/-- Content view of an ordered map. -/
inductive CEntries where
  | cenil
  | cecons (key : Int) (v : Cv) (rest : CEntries)

end

mutual

/-- Content of a pure value. -/
def contentV : Value → Cv
  | vint n => Cv.cint n
  | vstr s => Cv.cstr s
  | varr xs => Cv.carr xs
  | vrec r => contentR r
  | vmap m => Cv.cmap (contentE m)

/-- Content of a record. -/
def contentR : Record → Cv
  | Record.mk fl => Cv.crec (contentF fl)

/-- Content of a slot list. -/
def contentF : FieldList → CFields
  | fnil => CFields.cfnil
  | fcons n _ c rest => CFields.cfcons n (contentV c) (contentF rest)

/-- Content of an ordered map. -/
def contentE : EntryList → CEntries
  | enil => CEntries.cenil
  | econs k r rest => CEntries.cecons k (contentR r) (contentE rest)

end

mutual

/-- Pointer depth of the heap representation of a value (the fuel needed to
read it back). -/
def depthV : Value → Nat
  | vint _ => 1
  | vstr _ => 1
  | varr _ => 1
  | vrec r => depthR r
  | vmap m => depthE m + 1

/-- Pointer depth of a record. -/
def depthR : Record → Nat
  | Record.mk fl => depthF fl + 1

/-- Pointer depth of a slot list (one step per slot plus the children). -/
def depthF : FieldList → Nat
  | fnil => 0
  | fcons _ _ c rest => max (depthV c) (depthF rest) + 1

/-- Pointer depth of an ordered map. -/
def depthE : EntryList → Nat
  | enil => 0
  | econs _ r rest => max (depthR r) (depthE rest) + 1

end

mutual

/-- Fuelled readback of the content reachable from one address (the fuel
drops on every recursive step, so readback is structurally recursive and
computes by reduction). -/
def readV : Nat → Heap → Nat → Option Cv
  | 0, _, _ => none
  | fuel + 1, h, a =>
    match h[a]? with
    | some (HObj.hint n) => some (Cv.cint n)
    | some (HObj.hstr s) => some (Cv.cstr s)
    | some (HObj.harr xs) => some (Cv.carr xs)
    | some (HObj.hrec fs) =>
      match readFs fuel h fs with
      | some cf => some (Cv.crec cf)
      | none => none
    | some (HObj.hmap es) =>
      match readEs fuel h es with
      | some ce => some (Cv.cmap ce)
      | none => none
    | none => none

/-- Fuelled readback of a record object's field pointers. -/
def readFs : Nat → Heap → List (String × Nat) → Option CFields
  | _, _, [] => some CFields.cfnil
  | 0, _, _ :: _ => none
  | fuel + 1, h, (n, a) :: rest =>
    match readV fuel h a, readFs fuel h rest with
    | some v, some cf => some (CFields.cfcons n v cf)
    | _, _ => none

/-- Fuelled readback of a map object's entry pointers. -/
def readEs : Nat → Heap → List (Int × Nat) → Option CEntries
  | _, _, [] => some CEntries.cenil
  | 0, _, _ :: _ => none
  | fuel + 1, h, (k, a) :: rest =>
    match readV fuel h a, readEs fuel h rest with
    | some v, some ce => some (CEntries.cecons k v ce)
    | _, _ => none

end

/-- First-match lookup in a content field list. -/
def cfLookup : CFields → String → Option Cv
  | CFields.cfnil, _ => none
  | CFields.cfcons n v rest, f => if n = f then some v else cfLookup rest f

/-- Two heaps agree on the address interval `[m, n)`. -/
def agreeOn (h2 h1 : Heap) (m n : Nat) : Prop :=
  ∀ i, m ≤ i → i < n → h2[i]? = h1[i]?

/-! Heap-level accessors used by the notebook scenario. -/

/-- Address of a record object's named field slot. -/
def recFieldAddr (h : Heap) (a : Nat) (n : String) : Option Nat :=
  match h[a]? with
  | some (HObj.hrec fs) => List.lookup n fs
  | _ => none

/-- Address of a map object's entry for a key. -/
def mapEntryAddr (h : Heap) (a : Nat) (k : Int) : Option Nat :=
  match h[a]? with
  | some (HObj.hmap es) => List.lookup k es
  | _ => none

/-- First-match update-or-append on a map object's entry list. -/
def assocSetN : List (Int × Nat) → Int → Nat → List (Int × Nat)
  | [], k, a => [(k, a)]
  | (k2, a2) :: rest, k, a =>
    if k2 = k then (k2, a) :: rest else (k2, a2) :: assocSetN rest k a

/-- Heap-level `map[key] = value-address` (the notebook's
`ev.tel[10] = TelContainer()`). -/
def mapInsertH (h : Heap) (a : Nat) (k : Int) (va : Nat) : Heap :=
  match h[a]? with
  | some (HObj.hmap es) => heapSet h a (HObj.hmap (assocSetN es k va))
  | _ => h

/-- Read back the content of a record's named field. -/
def readFieldC (h : Heap) (a : Nat) (n : String) (fuel : Nat) : Option Cv :=
  match recFieldAddr h a n with
  | some b => readV fuel h b
  | none => none

/-! The notebook scenario on the heap: instantiate `EventContainer`, insert
three fresh `TelContainer` instances under keys `10, 5, 42`, then mutate
`ev.tel[5].image` element-wise to `9`. -/

/-- Instantiate the event container into the empty heap. -/
def evH : Heap × Nat := instantiateH [] EventContainerT

/-- Address of the `tel` map object. -/
def telAddr : Nat := (recFieldAddr evH.1 evH.2 "tel").getD 0

/-- Allocate the first `TelContainer`. -/
def t10H : Heap × Nat := instantiateH evH.1 TelContainerT

/-- Heap after `ev.tel[10] = TelContainer()`. -/
def heap2 : Heap := mapInsertH t10H.1 telAddr 10 t10H.2

/-- Allocate the second `TelContainer`. -/
def t5H : Heap × Nat := instantiateH heap2 TelContainerT

/-- Heap after `ev.tel[5] = TelContainer()`. -/
def heap3 : Heap := mapInsertH t5H.1 telAddr 5 t5H.2

/-- Allocate the third `TelContainer`. -/
def t42H : Heap × Nat := instantiateH heap3 TelContainerT

/-- Heap after `ev.tel[42] = TelContainer()`. -/
def heap4 : Heap := mapInsertH t42H.1 telAddr 42 t42H.2

/-- Address of `ev.tel[5].image`'s array object. -/
def img5Addr : Nat :=
  (match mapEntryAddr heap4 telAddr 5 with
   | some t => recFieldAddr heap4 t "image"
   | none => none).getD 0

/-- Heap after `ev.tel[5].image[:] = 9`. -/
def heapMut : Heap := heapSet heap4 img5Addr (HObj.harr (List.replicate 10 9))

/-! Export from the heap (for the read-only/totality claim): read the record
content back and export it in any of the three `as_dict` shapes. -/

/-- True for aggregate contents. -/
def cAggB : Cv → Bool
  | Cv.crec _ => true
  | Cv.cmap _ => true
  | _ => false

/-- Default (non-recursive) export of a content field list. -/
def cDict0 : CFields → List (String × Cv)
  | CFields.cfnil => []
  | CFields.cfcons n v rest =>
    if cAggB v then cDict0 rest else (n, v) :: cDict0 rest

mutual

/-- A recursive export tree over contents. -/
inductive CExp where
  | cleaf (v : Cv)
  | cnode (m : CExpList)

/-- A nested export mapping over contents. -/
inductive CExpList where
  | cxnil
  | cxcons (k : String) (e : CExp) (rest : CExpList)

end

mutual

/-- Recursive export of a content field list. -/
def cExpF : CFields → CExpList
  | CFields.cfnil => CExpList.cxnil
  | CFields.cfcons n v rest => CExpList.cxcons n (cExpSlot v) (cExpF rest)

/-- Recursive export of one content slot. -/
def cExpSlot : Cv → CExp
  | Cv.crec fs => CExp.cnode (cExpF fs)
  | Cv.cmap es => CExp.cnode (cExpE es)
  | v => CExp.cleaf v

/-- Recursive export of a content map. -/
def cExpE : CEntries → CExpList
  | CEntries.cenil => CExpList.cxnil
  | CEntries.cecons k v rest =>
    CExpList.cxcons (toString k) (cExpSlot v) (cExpE rest)

end

mutual

/-- Flatten export of a content field list under a path accumulator. -/
def cFlatF : List String → CFields → List (String × Cv)
  | _, CFields.cfnil => []
  | path, CFields.cfcons n v rest =>
    cFlatSlot (path ++ [n]) v ++ cFlatF path rest

/-- Flatten export of one content slot. -/
def cFlatSlot : List String → Cv → List (String × Cv)
  | path, Cv.crec fs => cFlatF path fs
  | path, Cv.cmap es => cFlatE path es
  | path, v => [(joinPath path, v)]

/-- Flatten export of a content map. -/
def cFlatE : List String → CEntries → List (String × Cv)
  | _, CEntries.cenil => []
  | path, CEntries.cecons k v rest =>
    cFlatSlot (path ++ [toString k]) v ++ cFlatE path rest

end

/-- The result of `as_dict(recursive, flatten)` read off the heap. -/
inductive HDictRes where
  | flat0 (xs : List (String × Cv))
  | tree (t : CExpList)
  | flatJ (xs : List (String × Cv))

/-- Dispatch of `as_dict` on the two boolean arguments, over a record
content. -/
def cvExport (rcv fl : Bool) (c : Cv) : HDictRes :=
  match c with
  | Cv.crec fs =>
    if rcv then
      if fl then HDictRes.flatJ (cFlatF [] fs) else HDictRes.tree (cExpF fs)
    else HDictRes.flat0 (cDict0 fs)
  | _ => HDictRes.flat0 []

/-- Modelled from the spec: `as_dict(recursive, flatten)` in the heap
embedding: read the record's content (a pure read) and export it; the heap
comes back untouched. -/
def asDictH (fuel : Nat) (rcv fl : Bool) (h : Heap) (a : Nat) :
    Option HDictRes × Heap :=
  match readV fuel h a with
  | some c => (some (cvExport rcv fl c), h)
  | none => (none, h)

/-! ### Helper lemmas: slot lookup and update -/

theorem slotAt_none_iff : ∀ (fl : FieldList) (f : String),
    slotAt fl f = none ↔ f ∉ fieldNames fl
  | fnil, f => by simp [slotAt, fieldNames]
  | fcons n d c rest, f => by
    have ih := slotAt_none_iff rest f
    by_cases h : n = f
    · subst h; simp [slotAt, fieldNames]
    · simp only [slotAt, fieldNames, h, if_false, ih, List.mem_cons]
      constructor
      · intro hnm hor
        rcases hor with heq | hmem
        · exact h heq.symm
        · exact hnm hmem
      · intro hnm hmem
        exact hnm (Or.inr hmem)

theorem setSlot_none_iff : ∀ (fl : FieldList) (f : String) (v : Value),
    setSlot fl f v = none ↔ f ∉ fieldNames fl
  | fnil, f, v => by simp [setSlot, fieldNames]
  | fcons n d c rest, f, v => by
    have ih := setSlot_none_iff rest f v
    by_cases h : n = f
    · subst h; simp [setSlot, fieldNames]
    · simp only [setSlot, fieldNames, h, if_false, List.mem_cons]
      constructor
      · intro hm hor
        rcases Option.map_eq_none'.mp hm with hnone
        rcases hor with heq | hmem
        · exact h heq.symm
        · exact (ih.mp hnone) hmem
      · intro hnm
        have hrest : f ∉ fieldNames rest := fun hmem => hnm (Or.inr hmem)
        rw [ih.mpr hrest]; rfl

theorem setSlot_mem : ∀ (fl : FieldList) (f : String) (v : Value),
    f ∈ fieldNames fl →
    ∃ fl2, setSlot fl f v = some fl2 ∧ fieldNames fl2 = fieldNames fl
      ∧ slotAt fl2 f = some v
  | fnil, f, v, h => by simp [fieldNames] at h
  | fcons n d c rest, f, v, h => by
    by_cases hn : n = f
    · subst hn
      exact ⟨fcons n d v rest, by simp [setSlot], rfl, by simp [slotAt]⟩
    · have hf : f ∈ fieldNames rest := by
        rcases (by simpa [fieldNames] using h) with heq | hmem
        · exact absurd heq.symm hn
        · exact hmem
      rcases setSlot_mem rest f v hf with ⟨fl2, hset, hnames, hslot⟩
      refine ⟨fcons n d c fl2, ?_, ?_, ?_⟩
      · simp [setSlot, hn, hset]
      · simp [fieldNames, hnames]
      · simp [slotAt, hn, hslot]

/-! ### C6: ordered-map iteration order -/

theorem entKeys_entSet : ∀ (m : EntryList) (k : Int) (r : Record),
    entKeys (entSet m k r) =
      (if k ∈ entKeys m then entKeys m else entKeys m ++ [k])
  | enil, k, r => by simp [entSet, entKeys]
  | econs k2 r2 rest, k, r => by
    have ih := entKeys_entSet rest k r
    by_cases h : k2 = k
    · subst h; simp [entSet, entKeys]
    · have hne : ¬(k = k2) := fun h2 => h h2.symm
      simp only [entSet, h, if_false, entKeys, ih, List.mem_cons, hne, false_or]
      by_cases hmem : k ∈ entKeys rest <;> simp [hmem]

theorem entGet_entSet : ∀ (m : EntryList) (k : Int) (r : Record),
    entGet (entSet m k r) k = .ok r
  | enil, k, r => by simp [entSet, entGet]
  | econs k2 r2 rest, k, r => by
    have ih := entGet_entSet rest k r
    by_cases h : k2 = k
    · subst h; simp [entSet, entGet]
    · simp [entSet, entGet, h, ih]

/-- C6: for every `OrderedMap`, iteration yields pairs in first-insertion
order — `set` on an already-present key updates the value without moving the
key's position, a new key is appended at the end — and after inserting entries
under keys `10, 5, 42` into an empty map, `size()` is `3` and iteration order
is `10, 5, 42`. -/
theorem orderedMap_insertion_order :
    (∀ (m : EntryList) (k : Int) (r : Record),
      entKeys (entSet m k r) =
        (if k ∈ entKeys m then entKeys m else entKeys m ++ [k]))
    ∧ (∀ (m : EntryList) (k : Int) (r : Record),
        entGet (entSet m k r) k = .ok r)
    ∧ entSize tel3 = 3 ∧ entKeys tel3 = [10, 5, 42] := by
  refine ⟨entKeys_entSet, entGet_entSet, by decide, by decide⟩

/-! ### C7: get/set fail fast on undeclared names -/

/-- C7: on every record, `get`/`set` with an undeclared field name fail
immediately with `UnknownField` (no implicit field creation), while `set` on a
declared name overwrites the slot — the field-name set is unchanged and a
subsequent `get` returns the assigned value. -/
theorem getset_unknown_field (r : Record) (n : String) (v : Value) :
    (n ∉ recNames r →
      getField r n = .error (.unknownField n)
      ∧ setField r n v = .error (.unknownField n))
    ∧ (n ∈ recNames r →
      ∃ r2, setField r n v = .ok r2 ∧ recNames r2 = recNames r
        ∧ getField r2 n = .ok v) := by
  constructor
  · intro hn
    constructor
    · unfold getField
      rw [(slotAt_none_iff r.fields n).mpr hn]
    · unfold setField
      rw [(setSlot_none_iff r.fields n v).mpr hn]
  · intro hn
    rcases setSlot_mem r.fields n v hn with ⟨fl2, hset, hnames, hslot⟩
    refine ⟨Record.mk fl2, ?_, ?_, ?_⟩
    · unfold setField; rw [hset]
    · simpa [recNames, Record.fields] using hnames
    · unfold getField; simp [Record.fields, hslot]

/-- Witness for C7 at the notebook's `EventContainer`: the undeclared name
`"borked"` fails on both `get` and `set`, and `set("event_id", 100)` followed
by `get("event_id")` returns `100`. -/
theorem getset_unknown_field_witness :
    (getField (instantiate EventContainerT) "borked"
        = .error (.unknownField "borked")
      ∧ setField (instantiate EventContainerT) "borked" (vint 100)
        = .error (.unknownField "borked"))
    ∧ (∃ r2, setField (instantiate EventContainerT) "event_id" (vint 100)
        = .ok r2
        ∧ recNames r2 = recNames (instantiate EventContainerT)
        ∧ getField r2 "event_id" = .ok (vint 100)) :=
  ⟨(getset_unknown_field (instantiate EventContainerT) "borked" (vint 100)).1
      (by decide),
   (getset_unknown_field (instantiate EventContainerT) "event_id"
      (vint 100)).2 (by decide)⟩

/-! ### C3: default export = exactly the non-nested fields -/

theorem asDict0_keys : ∀ (fl : FieldList),
    (asDict0 fl).map Prod.fst = nonNestedNames fl
  | fnil => rfl
  | fcons n d c rest => by
    have ih := asDict0_keys rest
    cases h : aggB c <;> simp [asDict0, nonNestedNames, h, ih]

theorem lookupV_asDict0_notMem : ∀ (fl : FieldList) (f : String),
    f ∉ fieldNames fl → lookupV (asDict0 fl) f = none
  | fnil, f, _ => rfl
  | fcons n d c rest, f, h => by
    have hsplit : ¬f = n ∧ f ∉ fieldNames rest := by
      simpa [fieldNames] using h
    have ih := lookupV_asDict0_notMem rest f hsplit.2
    have hn : ¬n = f := fun he => hsplit.1 he.symm
    cases h2 : aggB c <;> simp [asDict0, h2, lookupV, hn, ih]

theorem asDict0_lookup : ∀ (fl : FieldList) (f : String) (c : Value),
    (fieldNames fl).Nodup → slotAt fl f = some c →
    (aggB c = false → lookupV (asDict0 fl) f = some c)
    ∧ (aggB c = true → lookupV (asDict0 fl) f = none)
  | fnil, f, c, _, hslot => by simp [slotAt] at hslot
  | fcons n d c0 rest, f, c, hnd, hslot => by
    have hnd2 : n ∉ fieldNames rest ∧ (fieldNames rest).Nodup := by
      simpa [fieldNames, List.nodup_cons] using hnd
    by_cases hn : n = f
    · subst hn
      have hc : c = c0 := by simpa [slotAt] using hslot.symm
      subst hc
      constructor
      · intro hagg; simp [asDict0, hagg, lookupV]
      · intro hagg
        simp only [asDict0, hagg, if_true]
        exact lookupV_asDict0_notMem rest n hnd2.1
    · have hslot2 : slotAt rest f = some c := by simpa [slotAt, hn] using hslot
      have ih := asDict0_lookup rest f c hnd2.2 hslot2
      constructor
      · intro hagg
        cases h2 : aggB c0 <;> simp [asDict0, h2, lookupV, hn, ih.1 hagg]
      · intro hagg
        cases h2 : aggB c0 <;> simp [asDict0, h2, lookupV, hn, ih.2 hagg]

/-- C3: `as_mapping()` with default arguments: the key list is exactly the
record's non-nested field names, each non-nested field is mapped to its
current value, and every field holding a nested Record or Map is absent from
the result. -/
theorem asMapping_default_nonNested (r : Record) :
    (asDict0 r.fields).map Prod.fst = nonNestedNames r.fields
    ∧ ∀ f c, (recNames r).Nodup → slotAt r.fields f = some c →
      ((aggB c = false → lookupV (asDict0 r.fields) f = some c)
       ∧ (aggB c = true → lookupV (asDict0 r.fields) f = none)) :=
  ⟨asDict0_keys r.fields,
   fun f c hnd hslot => asDict0_lookup r.fields f c hnd hslot⟩

/-- Witness for C3 on the notebook's event record with its `tel` map filled:
`event_id` (non-nested) is present with its current value, `sub` and `tel`
(nested) are absent, and the key list is the non-nested names. -/
theorem asMapping_default_nonNested_witness :
    (asDict0 evTel.fields).map Prod.fst = ["event_id", "tels_with_data"]
    ∧ lookupV (asDict0 evTel.fields) "event_id" = some (vint (-1))
    ∧ lookupV (asDict0 evTel.fields) "sub" = none
    ∧ lookupV (asDict0 evTel.fields) "tel" = none := by
  refine ⟨?_, ?_, ?_, ?_⟩
  · have h := (asMapping_default_nonNested evTel).1
    rw [h]; rfl
  · exact ((asMapping_default_nonNested evTel).2 "event_id" (vint (-1))
      (by decide) rfl).1 rfl
  · exact ((asMapping_default_nonNested evTel).2 "sub"
      (vrec (instantiate SubContainerT)) (by decide) rfl).2 rfl
  · exact ((asMapping_default_nonNested evTel).2 "tel" (vmap tel3)
      (by decide) rfl).2 rfl

/-! ### C4: recursive non-flattened export preserves the tree shape -/

theorem xlookup_asDictRecF : ∀ (fl : FieldList) (f : String),
    xlookup (asDictRecF fl) f = (slotAt fl f).map exportSlot
  | fnil, f => rfl
  | fcons n d c rest, f => by
    have ih := xlookup_asDictRecF rest f
    by_cases hn : n = f <;> simp [asDictRecF, xlookup, slotAt, hn, ih]

theorem xkeys_expE : ∀ (m : EntryList),
    xkeys (expE m) = (entKeys m).map (fun k => toString k)
  | enil => rfl
  | econs k r rest => by
    have ih := xkeys_expE rest
    simp [expE, xkeys, entKeys, ih]

/-- C4: `as_mapping(recursive=true, flatten=false)` preserves the tree shape:
a field currently holding a nested Record is exported as the recursive export
of that record, and a Map-valued field becomes a mapping whose keys are
exactly the map's current key list (in iteration order) and whose values are
the recursive exports of the contained records. -/
theorem asMapping_recursive_tree (r : Record) (f : String) :
    (∀ r2, slotAt r.fields f = some (vrec r2) →
      xlookup (asDictRecR r) f = some (node (asDictRecR r2)))
    ∧ (∀ m, slotAt r.fields f = some (vmap m) →
      xlookup (asDictRecR r) f = some (node (expE m))
      ∧ xkeys (expE m) = (entKeys m).map (fun k => toString k)) := by
  obtain ⟨fl⟩ := r
  constructor
  · intro r2 hslot
    have h := xlookup_asDictRecF fl f
    rw [show asDictRecR (Record.mk fl) = asDictRecF fl from rfl, h,
      show slotAt (Record.mk fl).fields f = slotAt fl f from rfl] at *
    rw [hslot]; rfl
  · intro m hslot
    have h := xlookup_asDictRecF fl f
    refine ⟨?_, xkeys_expE m⟩
    rw [show asDictRecR (Record.mk fl) = asDictRecF fl from rfl, h,
      show slotAt (Record.mk fl).fields f = slotAt fl f from rfl] at *
    rw [hslot]; rfl

/-- Witness for C4 on the notebook's event record with its `tel` map filled:
the `sub` field exports as the recursive export of the sub-record and the
`tel` field exports as a mapping with keys `"10", "5", "42"`. -/
theorem asMapping_recursive_tree_witness :
    xlookup (asDictRecR evTel) "sub"
      = some (node (asDictRecR (instantiate SubContainerT)))
    ∧ xlookup (asDictRecR evTel) "tel" = some (node (expE tel3))
    ∧ xkeys (expE tel3) = (entKeys tel3).map (fun k => toString k) :=
  ⟨(asMapping_recursive_tree evTel "sub").1 (instantiate SubContainerT) rfl,
   ((asMapping_recursive_tree evTel "tel").2 tel3 rfl).1,
   ((asMapping_recursive_tree evTel "tel").2 tel3 rfl).2⟩

/-! ### C5: flatten export = one entry per leaf path, keys joined with "_" -/

mutual

theorem flatF_keys : ∀ (path : List String) (fl : FieldList),
    (flatF path fl).map Prod.fst = (lpF fl).map (fun p => joinPath (path ++ p))
  | path, fnil => by simp [flatF, lpF]
  | path, fcons n d c rest => by
    have ih1 := flatSlot_keys (path ++ [n]) c
    have ih2 := flatF_keys path rest
    have hfun : (fun p => joinPath ((path ++ [n]) ++ p))
        = fun p => joinPath (path ++ (n :: p)) := by
      funext p
      rw [List.append_assoc]
      rfl
    simp only [flatF, lpF, List.map_append, ih1, ih2, List.map_map]
    rw [show ((fun p => joinPath (path ++ p)) ∘ fun p => n :: p)
        = fun p => joinPath (path ++ (n :: p)) from rfl, ← hfun]

theorem flatSlot_keys : ∀ (path : List String) (c : Value),
    (flatSlot path c).map Prod.fst
      = (lpSlot c).map (fun p => joinPath (path ++ p))
  | path, vint n => by simp [flatSlot, lpSlot]
  | path, vstr s => by simp [flatSlot, lpSlot]
  | path, varr xs => by simp [flatSlot, lpSlot]
  | path, vrec r => by
    have ih := flatR_keys path r
    simpa [flatSlot, lpSlot] using ih
  | path, vmap m => by
    have ih := flatE_keys path m
    simpa [flatSlot, lpSlot] using ih

theorem flatR_keys : ∀ (path : List String) (r : Record),
    (flatR path r).map Prod.fst = (lpR r).map (fun p => joinPath (path ++ p))
  | path, Record.mk fl => by
    have ih := flatF_keys path fl
    simpa [flatR, lpR] using ih

theorem flatE_keys : ∀ (path : List String) (m : EntryList),
    (flatE path m).map Prod.fst = (lpE m).map (fun p => joinPath (path ++ p))
  | path, enil => by simp [flatE, lpE]
  | path, econs k r rest => by
    have ih1 := flatR_keys (path ++ [toString k]) r
    have ih2 := flatE_keys path rest
    have hfun : (fun p => joinPath ((path ++ [toString k]) ++ p))
        = fun p => joinPath (path ++ (toString k :: p)) := by
      funext p
      rw [List.append_assoc]
      rfl
    simp only [flatE, lpE, List.map_append, ih1, ih2, List.map_map]
    rw [show ((fun p => joinPath (path ++ p)) ∘ fun p => toString k :: p)
        = fun p => joinPath (path ++ (toString k :: p)) from rfl, ← hfun]

end

mutual

theorem flatF_leaves : ∀ (path : List String) (fl : FieldList),
    (flatF path fl).all (fun pr => !aggB pr.2) = true
  | path, fnil => rfl
  | path, fcons n d c rest => by
    have ih1 := flatSlot_leaves (path ++ [n]) c
    have ih2 := flatF_leaves path rest
    simp [flatF, List.all_append, ih1, ih2]

theorem flatSlot_leaves : ∀ (path : List String) (c : Value),
    (flatSlot path c).all (fun pr => !aggB pr.2) = true
  | _, vint _ => rfl
  | _, vstr _ => rfl
  | _, varr _ => rfl
  | path, vrec r => flatR_leaves path r
  | path, vmap m => flatE_leaves path m

theorem flatR_leaves : ∀ (path : List String) (r : Record),
    (flatR path r).all (fun pr => !aggB pr.2) = true
  | path, Record.mk fl => flatF_leaves path fl

theorem flatE_leaves : ∀ (path : List String) (m : EntryList),
    (flatE path m).all (fun pr => !aggB pr.2) = true
  | path, enil => rfl
  | path, econs k r rest => by
    have ih1 := flatR_leaves (path ++ [toString k]) r
    have ih2 := flatE_leaves path rest
    simp [flatE, List.all_append, ih1, ih2]

end

/-- C5: `as_mapping(recursive=true, flatten=true)` is a single-level mapping
(every exported value is a leaf) whose key list is exactly the record's
leaf-field paths each joined with the separator `"_"`; on the notebook's
event record the field `image` under map key `5` under field `tel` gets the
key `"tel_5_image"`. -/
theorem asMapping_flatten_paths (r : Record) :
    (asDictFlat r).map Prod.fst = (lpR r).map joinPath
    ∧ (asDictFlat r).all (fun pr => !aggB pr.2) = true
    ∧ (asDictFlat evTel).map Prod.fst =
      ["event_id", "tels_with_data", "sub_junk",
       "tel_10_tel_id", "tel_10_image", "tel_5_tel_id", "tel_5_image",
       "tel_42_tel_id", "tel_42_image"] := by
  obtain ⟨fl⟩ := r
  refine ⟨?_, flatF_leaves [] fl, by decide⟩
  have h := flatF_keys [] fl
  simpa [asDictFlat, lpR, Record.fields] using h

/-! ### C2: reset restores declared defaults, recursing into maps -/

theorem entKeys_resetE : ∀ (m : EntryList), entKeys (resetE m) = entKeys m
  | enil => rfl
  | econs k r rest => by
    have ih := entKeys_resetE rest
    simp [resetE, entKeys, ih]

theorem slotAt_resetF : ∀ (fl : FieldList) (f : String),
    slotAt (resetF fl) f = (specAt fl f).map (fun dc => resetSlot dc.1 dc.2)
  | fnil, f => rfl
  | fcons n d c rest, f => by
    have ih := slotAt_resetF rest f
    by_cases hn : n = f <;> simp [resetF, slotAt, specAt, hn, ih]

theorem resetSlot_nonAgg (d c : Value) (h : aggB c = false) :
    resetSlot d c = d := by
  cases c with
  | vrec r => simp [aggB] at h
  | vmap m => simp [aggB] at h
  | vint n => rfl
  | vstr s => rfl
  | varr xs => rfl

/-- C2: `reset()` restores every slot: a slot holding a non-aggregate value is
replaced by a fresh copy of its declared default, a nested-Record slot is
reset in place, and a Map slot has each of its records reset in place with
the map's key list (hence iteration order) unchanged; in particular, after
setting `ev.tel[5].image` element-wise to `9`, `reset()` restores
`ev.tel[5].image` to all zeros. -/
theorem reset_restores_defaults (r : Record) (f : String) (d c : Value)
    (hspec : specAt r.fields f = some (d, c)) :
    (aggB c = false → slotAt (resetR r).fields f = some d)
    ∧ (∀ r2, c = vrec r2 →
        slotAt (resetR r).fields f = some (vrec (resetR r2)))
    ∧ (∀ m, c = vmap m →
        slotAt (resetR r).fields f = some (vmap (resetE m))
        ∧ entKeys (resetE m) = entKeys m)
    ∧ imageOfTel evTelMut 5 = some (varr (List.replicate 10 9))
    ∧ imageOfTel (resetR evTelMut) 5 = some (varr (List.replicate 10 0)) := by
  obtain ⟨fl⟩ := r
  have hs : slotAt (resetF fl) f = some (resetSlot d c) := by
    rw [slotAt_resetF fl f, show specAt (Record.mk fl).fields f = specAt fl f
      from rfl] at *
    rw [hspec]
    rfl
  refine ⟨?_, ?_, ?_, rfl, rfl⟩
  · intro hagg
    rw [show (resetR (Record.mk fl)).fields = resetF fl from rfl, hs,
      resetSlot_nonAgg d c hagg]
  · intro r2 hc
    subst hc
    rw [show (resetR (Record.mk fl)).fields = resetF fl from rfl, hs]
    rfl
  · intro m hc
    subst hc
    refine ⟨?_, entKeys_resetE m⟩
    rw [show (resetR (Record.mk fl)).fields = resetF fl from rfl, hs]
    rfl

/-- Witness for C2 on the notebook's mutated event record: the scalar
`event_id` slot returns to its default and the `tel` map slot is reset entry
by entry with its keys `10, 5, 42` unchanged. -/
theorem reset_restores_defaults_witness :
    slotAt (resetR evTelMut).fields "event_id" = some (vint (-1))
    ∧ slotAt (resetR evTelMut).fields "tel"
        = some (vmap (resetE (entSet tel3 5 telNines)))
    ∧ entKeys (resetE (entSet tel3 5 telNines))
        = entKeys (entSet tel3 5 telNines) :=
  ⟨(reset_restores_defaults evTelMut "event_id" (vint (-1)) (vint (-1))
      rfl).1 rfl,
   ((reset_restores_defaults evTelMut "tel" (vmap enil)
      (vmap (entSet tel3 5 telNines)) rfl).2.2.1
      (entSet tel3 5 telNines) rfl).1,
   ((reset_restores_defaults evTelMut "tel" (vmap enil)
      (vmap (entSet tel3 5 telNines)) rfl).2.2.1
      (entSet tel3 5 telNines) rfl).2⟩

/-! ### C9: reset is idempotent only on kind-well-formed records -/

mutual

theorem resetR_idem_aux : ∀ (r : Record), wfR r = true →
    resetR (resetR r) = resetR r
  | Record.mk fl, h => by
    have ih := resetF_idem_aux fl (by simpa [wfR] using h)
    simp [resetR, ih]

theorem resetF_idem_aux : ∀ (fl : FieldList), wfF fl = true →
    resetF (resetF fl) = resetF fl
  | fnil, _ => rfl
  | fcons n d c rest, h => by
    have h3 : aggOk d c = true ∧ wfV c = true ∧ wfF rest = true := by
      simpa [wfF, Bool.and_assoc, Bool.and_eq_true] using h
    have ih := resetF_idem_aux rest h3.2.2
    have hslot : resetSlot d (resetSlot d c) = resetSlot d c := by
      cases c with
      | vrec r2 =>
        have hr := resetR_idem_aux r2 (by simpa [wfV] using h3.2.1)
        simp [resetSlot, hr]
      | vmap m =>
        have hm := resetE_idem_aux m (by simpa [wfV] using h3.2.1)
        simp [resetSlot, hm]
      | vint k =>
        have hd : aggB d = false := by simpa [aggOk, aggB] using h3.1
        rw [resetSlot_nonAgg d (vint k) rfl, resetSlot_nonAgg d d hd]
      | vstr s =>
        have hd : aggB d = false := by simpa [aggOk, aggB] using h3.1
        rw [resetSlot_nonAgg d (vstr s) rfl, resetSlot_nonAgg d d hd]
      | varr xs =>
        have hd : aggB d = false := by simpa [aggOk, aggB] using h3.1
        rw [resetSlot_nonAgg d (varr xs) rfl, resetSlot_nonAgg d d hd]
    simp [resetF, hslot, ih]

theorem resetE_idem_aux : ∀ (m : EntryList), wfE m = true →
    resetE (resetE m) = resetE m
  | enil, _ => rfl
  | econs k r rest, h => by
    have h2 : wfR r = true ∧ wfE rest = true := by
      simpa [wfE, Bool.and_eq_true] using h
    have ihr := resetR_idem_aux r h2.1
    have ihe := resetE_idem_aux rest h2.2
    simp [resetE, ihr, ihe]

end

/-- C9 counterexample: `reset()` is not idempotent on every record in every
state.  `outerBad` currently holds the user-assigned scalar `0` in a slot
whose declared default is a record whose own `g` slot was mutated away from
its default; the first `reset()` installs a copy of that default record, the
second one additionally resets `g`, so two resets differ from one. -/
theorem reset_not_idempotent : resetR (resetR outerBad) ≠ resetR outerBad := by
  intro h
  have h7 : probeG (resetR (resetR outerBad)) = 7 := rfl
  rw [h] at h7
  have h5 : probeG (resetR outerBad) = 5 := rfl
  rw [h5] at h7
  exact absurd h7 (by decide)

/-- C9 (amended): on every record whose slots hold values of the same kind as
their declared defaults (recursively — the spec's own data-model invariant),
calling `reset()` twice in a row leaves the record as calling it once. -/
theorem reset_idempotent_wf (r : Record) (h : wfR r = true) :
    resetR (resetR r) = resetR r :=
  resetR_idem_aux r h

/-- Witness for the amended C9 at the notebook's mutated event record. -/
theorem reset_idempotent_wf_witness :
    wfR evTelMut = true
    ∧ resetR (resetR evTelMut) = resetR evTelMut :=
  ⟨rfl, reset_idempotent_wf evTelMut rfl⟩

/-! ### Allocation: freshness, region closure, and readback correctness -/

mutual

theorem allocV_spec : ∀ (v : Value) (h : Heap),
    h.length ≤ (allocV h v).1.length
    ∧ h.length ≤ (allocV h v).2
    ∧ (allocV h v).2 < (allocV h v).1.length
    ∧ agreeOn (allocV h v).1 h 0 h.length
    ∧ (∀ i obj, h.length ≤ i → (allocV h v).1[i]? = some obj →
        ∀ p ∈ ptrsOf obj, h.length ≤ p ∧ p < i)
    ∧ (∀ (h2 : Heap) (fuel : Nat), depthV v ≤ fuel →
        agreeOn h2 (allocV h v).1 h.length (allocV h v).1.length →
        readV fuel h2 (allocV h v).2 = some (contentV v))
  | vint n, h => by
    dsimp only [allocV]
    refine ⟨by simp, le_refl _, by simp, ?_, ?_, ?_⟩
    · intro i h0 hi
      exact List.getElem?_append_left hi
    · intro i obj hge hsome p hp
      rcases Nat.lt_or_ge i (h.length + 1) with hlt | hge2
      · have hi : i = h.length := by omega
        subst hi
        rw [List.getElem?_concat_length] at hsome
        cases hsome
        simp [ptrsOf] at hp
      · rw [List.getElem?_eq_none (by simp; omega)] at hsome
        simp at hsome
    · intro h2 fuel hfuel hag
      obtain ⟨g, rfl⟩ : ∃ g, fuel = g + 1 :=
        ⟨fuel - 1, by simp [depthV] at hfuel; omega⟩
      have hobj : h2[h.length]? = some (HObj.hint n) := by
        rw [hag h.length (le_refl _) (by simp), List.getElem?_concat_length]
      simp [readV, hobj, contentV]
  | vstr s, h => by
    dsimp only [allocV]
    refine ⟨by simp, le_refl _, by simp, ?_, ?_, ?_⟩
    · intro i h0 hi
      exact List.getElem?_append_left hi
    · intro i obj hge hsome p hp
      rcases Nat.lt_or_ge i (h.length + 1) with hlt | hge2
      · have hi : i = h.length := by omega
        subst hi
        rw [List.getElem?_concat_length] at hsome
        cases hsome
        simp [ptrsOf] at hp
      · rw [List.getElem?_eq_none (by simp; omega)] at hsome
        simp at hsome
    · intro h2 fuel hfuel hag
      obtain ⟨g, rfl⟩ : ∃ g, fuel = g + 1 :=
        ⟨fuel - 1, by simp [depthV] at hfuel; omega⟩
      have hobj : h2[h.length]? = some (HObj.hstr s) := by
        rw [hag h.length (le_refl _) (by simp), List.getElem?_concat_length]
      simp [readV, hobj, contentV]
  | varr xs, h => by
    dsimp only [allocV]
    refine ⟨by simp, le_refl _, by simp, ?_, ?_, ?_⟩
    · intro i h0 hi
      exact List.getElem?_append_left hi
    · intro i obj hge hsome p hp
      rcases Nat.lt_or_ge i (h.length + 1) with hlt | hge2
      · have hi : i = h.length := by omega
        subst hi
        rw [List.getElem?_concat_length] at hsome
        cases hsome
        simp [ptrsOf] at hp
      · rw [List.getElem?_eq_none (by simp; omega)] at hsome
        simp at hsome
    · intro h2 fuel hfuel hag
      obtain ⟨g, rfl⟩ : ∃ g, fuel = g + 1 :=
        ⟨fuel - 1, by simp [depthV] at hfuel; omega⟩
      have hobj : h2[h.length]? = some (HObj.harr xs) := by
        rw [hag h.length (le_refl _) (by simp), List.getElem?_concat_length]
      simp [readV, hobj, contentV]
  | vrec r, h => allocR_spec r h
  | vmap m, h => by
    obtain ⟨l1, ag1, ps1, reg1, rd1⟩ := allocE_spec m h
    dsimp only [allocV]
    refine ⟨by simp; omega, l1, by simp, ?_, ?_, ?_⟩
    · intro i h0 hi
      rw [List.getElem?_append_left (by omega)]
      exact ag1 i h0 hi
    · intro i obj hge hsome p hp
      rcases lt_trichotomy i (allocE h m).1.length with hlt | heq | hgt
      · rw [List.getElem?_append_left hlt] at hsome
        exact reg1 i obj hge hsome p hp
      · subst heq
        rw [List.getElem?_concat_length] at hsome
        cases hsome
        simp only [ptrsOf, List.mem_map] at hp
        obtain ⟨pr, hpr, rfl⟩ := hp
        exact ⟨(ps1 pr hpr).1, (ps1 pr hpr).2⟩
      · rw [List.getElem?_eq_none (by simp; omega)] at hsome
        simp at hsome
    · intro h2 fuel hfuel hag
      obtain ⟨g, rfl⟩ : ∃ g, fuel = g + 1 :=
        ⟨fuel - 1, by simp [depthV] at hfuel; omega⟩
      have hg : depthE m ≤ g := by simp [depthV] at hfuel; omega
      have hobj : h2[(allocE h m).1.length]? = some (HObj.hmap (allocE h m).2) := by
        rw [hag (allocE h m).1.length l1 (by simp), List.getElem?_concat_length]
      have hrd : readEs g h2 (allocE h m).2 = some (contentE m) := by
        apply rd1 h2 g hg
        intro i hge hlt
        rw [hag i hge (by simp; omega), List.getElem?_append_left hlt]
      simp [readV, hobj, hrd, contentV]

theorem allocR_spec : ∀ (r : Record) (h : Heap),
    h.length ≤ (allocR h r).1.length
    ∧ h.length ≤ (allocR h r).2
    ∧ (allocR h r).2 < (allocR h r).1.length
    ∧ agreeOn (allocR h r).1 h 0 h.length
    ∧ (∀ i obj, h.length ≤ i → (allocR h r).1[i]? = some obj →
        ∀ p ∈ ptrsOf obj, h.length ≤ p ∧ p < i)
    ∧ (∀ (h2 : Heap) (fuel : Nat), depthR r ≤ fuel →
        agreeOn h2 (allocR h r).1 h.length (allocR h r).1.length →
        readV fuel h2 (allocR h r).2 = some (contentR r))
  | Record.mk fl, h => by
    obtain ⟨l1, ag1, ps1, reg1, rd1⟩ := allocF_spec fl h
    dsimp only [allocR]
    refine ⟨by simp; omega, l1, by simp, ?_, ?_, ?_⟩
    · intro i h0 hi
      rw [List.getElem?_append_left (by omega)]
      exact ag1 i h0 hi
    · intro i obj hge hsome p hp
      rcases lt_trichotomy i (allocF h fl).1.length with hlt | heq | hgt
      · rw [List.getElem?_append_left hlt] at hsome
        exact reg1 i obj hge hsome p hp
      · subst heq
        rw [List.getElem?_concat_length] at hsome
        cases hsome
        simp only [ptrsOf, List.mem_map] at hp
        obtain ⟨pr, hpr, rfl⟩ := hp
        exact ⟨(ps1 pr hpr).1, (ps1 pr hpr).2⟩
      · rw [List.getElem?_eq_none (by simp; omega)] at hsome
        simp at hsome
    · intro h2 fuel hfuel hag
      obtain ⟨g, rfl⟩ : ∃ g, fuel = g + 1 :=
        ⟨fuel - 1, by simp [depthR] at hfuel; omega⟩
      have hg : depthF fl ≤ g := by simp [depthR] at hfuel; omega
      have hobj : h2[(allocF h fl).1.length]?
          = some (HObj.hrec (allocF h fl).2) := by
        rw [hag (allocF h fl).1.length l1 (by simp), List.getElem?_concat_length]
      have hrd : readFs g h2 (allocF h fl).2 = some (contentF fl) := by
        apply rd1 h2 g hg
        intro i hge hlt
        rw [hag i hge (by simp; omega), List.getElem?_append_left hlt]
      simp [readV, hobj, hrd, contentR]

theorem allocF_spec : ∀ (fl : FieldList) (h : Heap),
    h.length ≤ (allocF h fl).1.length
    ∧ agreeOn (allocF h fl).1 h 0 h.length
    ∧ (∀ pr ∈ (allocF h fl).2, h.length ≤ pr.2 ∧ pr.2 < (allocF h fl).1.length)
    ∧ (∀ i obj, h.length ≤ i → (allocF h fl).1[i]? = some obj →
        ∀ p ∈ ptrsOf obj, h.length ≤ p ∧ p < i)
    ∧ (∀ (h2 : Heap) (fuel : Nat), depthF fl ≤ fuel →
        agreeOn h2 (allocF h fl).1 h.length (allocF h fl).1.length →
        readFs fuel h2 (allocF h fl).2 = some (contentF fl))
  | fnil, h => by
    dsimp only [allocF]
    refine ⟨le_refl _, fun i _ _ => rfl, ?_, ?_, ?_⟩
    · intro pr hpr
      simp at hpr
    · intro i obj hge hsome p hp
      rw [List.getElem?_eq_none hge] at hsome
      simp at hsome
    · intro h2 fuel _ _
      simp [readFs, contentF]
  | fcons n d c rest, h => by
    obtain ⟨l1, r1lo, r1hi, ag1, reg1, rd1⟩ := allocV_spec c h
    obtain ⟨l2, ag2, ps2, reg2, rd2⟩ := allocF_spec rest (allocV h c).1
    dsimp only [allocF]
    refine ⟨le_trans l1 l2, ?_, ?_, ?_, ?_⟩
    · intro i h0 hi
      exact (ag2 i h0 (by omega)).trans (ag1 i h0 hi)
    · intro pr hpr
      rcases List.mem_cons.mp hpr with rfl | hmem
      · exact ⟨r1lo, lt_of_lt_of_le r1hi l2⟩
      · exact ⟨le_trans l1 (ps2 pr hmem).1, (ps2 pr hmem).2⟩
    · intro i obj hge hsome p hp
      rcases Nat.lt_or_ge i (allocV h c).1.length with hlt | hge2
      · have hsome1 : (allocV h c).1[i]? = some obj := by
          rw [← ag2 i (Nat.zero_le i) hlt]
          exact hsome
        exact reg1 i obj hge hsome1 p hp
      · exact ⟨le_trans l1 (reg2 i obj hge2 hsome p hp).1,
          (reg2 i obj hge2 hsome p hp).2⟩
    · intro h2 fuel hfuel hag
      obtain ⟨g, rfl⟩ : ∃ g, fuel = g + 1 :=
        ⟨fuel - 1, by simp [depthF] at hfuel; omega⟩
      have hfuel2 : depthV c ≤ g ∧ depthF rest ≤ g := by
        have h1 : max (depthV c) (depthF rest) + 1 ≤ g + 1 := by
          simpa [depthF] using hfuel
        constructor <;> omega
      have hrdc : readV g h2 (allocV h c).2 = some (contentV c) := by
        apply rd1 h2 g hfuel2.1
        intro i hge hlt
        exact (hag i hge (by omega)).trans (ag2 i (Nat.zero_le i) hlt)
      have hrdr : readFs g h2 (allocF (allocV h c).1 rest).2
          = some (contentF rest) := by
        apply rd2 h2 g hfuel2.2
        intro i hge hlt
        exact hag i (le_trans l1 hge) hlt
      simp [readFs, hrdc, hrdr, contentF]

theorem allocE_spec : ∀ (m : EntryList) (h : Heap),
    h.length ≤ (allocE h m).1.length
    ∧ agreeOn (allocE h m).1 h 0 h.length
    ∧ (∀ pr ∈ (allocE h m).2, h.length ≤ pr.2 ∧ pr.2 < (allocE h m).1.length)
    ∧ (∀ i obj, h.length ≤ i → (allocE h m).1[i]? = some obj →
        ∀ p ∈ ptrsOf obj, h.length ≤ p ∧ p < i)
    ∧ (∀ (h2 : Heap) (fuel : Nat), depthE m ≤ fuel →
        agreeOn h2 (allocE h m).1 h.length (allocE h m).1.length →
        readEs fuel h2 (allocE h m).2 = some (contentE m))
  | enil, h => by
    dsimp only [allocE]
    refine ⟨le_refl _, fun i _ _ => rfl, ?_, ?_, ?_⟩
    · intro pr hpr
      simp at hpr
    · intro i obj hge hsome p hp
      rw [List.getElem?_eq_none hge] at hsome
      simp at hsome
    · intro h2 fuel _ _
      simp [readEs, contentE]
  | econs k r rest, h => by
    obtain ⟨l1, r1lo, r1hi, ag1, reg1, rd1⟩ := allocR_spec r h
    obtain ⟨l2, ag2, ps2, reg2, rd2⟩ := allocE_spec rest (allocR h r).1
    dsimp only [allocE]
    refine ⟨le_trans l1 l2, ?_, ?_, ?_, ?_⟩
    · intro i h0 hi
      exact (ag2 i h0 (by omega)).trans (ag1 i h0 hi)
    · intro pr hpr
      rcases List.mem_cons.mp hpr with rfl | hmem
      · exact ⟨r1lo, lt_of_lt_of_le r1hi l2⟩
      · exact ⟨le_trans l1 (ps2 pr hmem).1, (ps2 pr hmem).2⟩
    · intro i obj hge hsome p hp
      rcases Nat.lt_or_ge i (allocR h r).1.length with hlt | hge2
      · have hsome1 : (allocR h r).1[i]? = some obj := by
          rw [← ag2 i (Nat.zero_le i) hlt]
          exact hsome
        exact reg1 i obj hge hsome1 p hp
      · exact ⟨le_trans l1 (reg2 i obj hge2 hsome p hp).1,
          (reg2 i obj hge2 hsome p hp).2⟩
    · intro h2 fuel hfuel hag
      obtain ⟨g, rfl⟩ : ∃ g, fuel = g + 1 :=
        ⟨fuel - 1, by simp [depthE] at hfuel; omega⟩
      have hfuel2 : depthR r ≤ g ∧ depthE rest ≤ g := by
        have h1 : max (depthR r) (depthE rest) + 1 ≤ g + 1 := by
          simpa [depthE] using hfuel
        constructor <;> omega
      have hrdc : readV g h2 (allocR h r).2 = some (contentR r) := by
        apply rd1 h2 g hfuel2.1
        intro i hge hlt
        exact (hag i hge (by omega)).trans (ag2 i (Nat.zero_le i) hlt)
      have hrdr : readEs g h2 (allocE (allocR h r).1 rest).2
          = some (contentE rest) := by
        apply rd2 h2 g hfuel2.2
        intro i hge hlt
        exact hag i (le_trans l1 hge) hlt
      simp [readEs, hrdc, hrdr, contentE]

end

/-! ### C1: instantiation installs defaults in fresh, unshared storage -/

theorem slotAt_instFields : ∀ (rt : RecordType) (s : FieldSpec),
    (rt.map FieldSpec.name).Nodup → s ∈ rt →
    slotAt (instFields rt) s.name = some s.dflt
  | [], s, _, hs => by simp at hs
  | s0 :: rest, s, hnd, hs => by
    rcases List.mem_cons.mp hs with rfl | hmem
    · simp [instFields, slotAt]
    · have hnd2 : (rest.map FieldSpec.name).Nodup :=
        (List.nodup_cons.mp (by simpa using hnd)).2
      have hne : ¬s0.name = s.name := by
        intro he
        exact (List.nodup_cons.mp (by simpa using hnd)).1
          (he ▸ List.mem_map_of_mem FieldSpec.name hmem)
      simp only [instFields, slotAt, hne, if_false]
      exact slotAt_instFields rest s hnd2 hmem

theorem cfLookup_contentF : ∀ (rt : RecordType) (s : FieldSpec),
    (rt.map FieldSpec.name).Nodup → s ∈ rt →
    cfLookup (contentF (instFields rt)) s.name = some (contentV s.dflt)
  | [], s, _, hs => by simp at hs
  | s0 :: rest, s, hnd, hs => by
    rcases List.mem_cons.mp hs with rfl | hmem
    · simp [instFields, contentF, cfLookup]
    · have hnd2 : (rest.map FieldSpec.name).Nodup :=
        (List.nodup_cons.mp (by simpa using hnd)).2
      have hne : ¬s0.name = s.name := by
        intro he
        exact (List.nodup_cons.mp (by simpa using hnd)).1
          (he ▸ List.mem_map_of_mem FieldSpec.name hmem)
      simp only [instFields, contentF, cfLookup, hne, if_false]
      exact cfLookup_contentF rest s hnd2 hmem

/-- C1: a freshly instantiated record holds every declared field's default
(`get(f)` returns `d`), and the instance's storage is a fresh deep copy:
instantiating twice allocates the second instance entirely in new addresses
(its objects reference only that new region), and overwriting any address of
the second instance's region — or beyond — leaves the first instance's
readback (hence its slot for every field `f`, which reads back as exactly the
declared default content) unchanged; the declared defaults themselves are
immutable templates outside the heap. -/
theorem instantiate_defaults_fresh (rt : RecordType) (s : FieldSpec)
    (h0 : Heap) (hnd : (rt.map FieldSpec.name).Nodup) (hs : s ∈ rt) :
    getField (instantiate rt) s.name = .ok s.dflt
    ∧ cfLookup (contentF (instFields rt)) s.name = some (contentV s.dflt)
    ∧ h0.length ≤ (instantiateH h0 rt).2
    ∧ (instantiateH h0 rt).2 < (instantiateH h0 rt).1.length
    ∧ (instantiateH h0 rt).1.length ≤ (instantiateH (instantiateH h0 rt).1 rt).2
    ∧ (∀ i obj, (instantiateH h0 rt).1.length ≤ i →
        (instantiateH (instantiateH h0 rt).1 rt).1[i]? = some obj →
        ∀ p ∈ ptrsOf obj, (instantiateH h0 rt).1.length ≤ p ∧ p < i)
    ∧ (∀ b obj2 fuel, (instantiateH h0 rt).1.length ≤ b →
        depthR (instantiate rt) ≤ fuel →
        readV fuel (heapSet (instantiateH (instantiateH h0 rt).1 rt).1 b obj2)
          (instantiateH h0 rt).2 = some (contentR (instantiate rt))) := by
  obtain ⟨l1, r1lo, r1hi, ag1, reg1, rd1⟩ := allocR_spec (instantiate rt) h0
  obtain ⟨l2, r2lo, r2hi, ag2, reg2, rd2⟩ :=
    allocR_spec (instantiate rt) (instantiateH h0 rt).1
  refine ⟨?_, cfLookup_contentF rt s hnd hs, r1lo, r1hi, r2lo, reg2, ?_⟩
  · unfold getField
    rw [show (instantiate rt).fields = instFields rt from rfl,
      slotAt_instFields rt s hnd hs]
  · intro b obj2 fuel hb hfuel
    unfold instantiateH at hb
    apply rd1 (heapSet (instantiateH (instantiateH h0 rt).1 rt).1 b obj2)
      fuel hfuel
    intro i hge hlt
    unfold heapSet
    rw [List.getElem?_set_ne (by omega : b ≠ i)]
    exact ag2 i (Nat.zero_le i) hlt

/-- Witness for C1: the notebook's `EventContainer` instantiated twice into
the empty heap; `event_id` reads `-1`, and after overwriting the first
address of the second instance's region the first instance still reads back
as the full default content. -/
theorem instantiate_defaults_fresh_witness :
    getField (instantiate EventContainerT) "event_id" = .ok (vint (-1))
    ∧ readV 8
        (heapSet (instantiateH (instantiateH [] EventContainerT).1
            EventContainerT).1
          (instantiateH [] EventContainerT).1.length (HObj.hint 99))
        (instantiateH [] EventContainerT).2
      = some (contentR (instantiate EventContainerT)) :=
  ⟨(instantiate_defaults_fresh EventContainerT
      ⟨"event_id", vint (-1), "event id number"⟩ [] (by decide)
      (List.mem_cons_self _ _)).1,
   (instantiate_defaults_fresh EventContainerT
      ⟨"event_id", vint (-1), "event id number"⟩ [] (by decide)
      (List.mem_cons_self _ _)).2.2.2.2.2.2
     (instantiateH [] EventContainerT).1.length (HObj.hint 99) 8
     (le_refl _) (by decide)⟩

/-! ### C8: export is read-only and total -/

/-- C8: for every record freshly laid out in the heap and every argument
combination of `as_dict(recursive, flatten)`, the export returns the heap
exactly as it was (the record and all its descendants are unchanged) and
never fails: it returns the export of the record's content. -/
theorem export_readonly_total (rt : RecordType) (h0 : Heap) (rcv fl : Bool)
    (fuel : Nat) (hfuel : depthR (instantiate rt) ≤ fuel) :
    (asDictH fuel rcv fl (instantiateH h0 rt).1 (instantiateH h0 rt).2).2
      = (instantiateH h0 rt).1
    ∧ (asDictH fuel rcv fl (instantiateH h0 rt).1 (instantiateH h0 rt).2).1
      = some (cvExport rcv fl (contentR (instantiate rt))) := by
  obtain ⟨l1, r1lo, r1hi, ag1, reg1, rd1⟩ := allocR_spec (instantiate rt) h0
  have hread : readV fuel (instantiateH h0 rt).1 (instantiateH h0 rt).2
      = some (contentR (instantiate rt)) :=
    rd1 (instantiateH h0 rt).1 fuel hfuel (fun i _ _ => rfl)
  constructor <;> simp [asDictH, hread]

/-- Witness for C8 at the notebook's `EventContainer` on the empty heap with
`recursive=true, flatten=true`. -/
theorem export_readonly_total_witness :
    (asDictH 8 true true (instantiateH [] EventContainerT).1
        (instantiateH [] EventContainerT).2).2
      = (instantiateH [] EventContainerT).1
    ∧ (asDictH 8 true true (instantiateH [] EventContainerT).1
        (instantiateH [] EventContainerT).2).1
      = some (cvExport true true (contentR (instantiate EventContainerT))) :=
  export_readonly_total EventContainerT [] true true 8 (by decide)

/-! ### C10: map-held sibling instances share no mutable state -/

/-- C10: in the heap scenario of the notebook — three separately instantiated
`TelContainer`s inserted under `tel[10]`, `tel[5]`, `tel[42]`, then
`tel[5].image` overwritten with all `9`s — the mutation is visible at
`tel[5].image` only: `event_id`, `tels_with_data` and `sub.junk` of the event
record, the images of the sibling entries `tel[10]` and `tel[42]`, and even
`tel[5].tel_id` all still read back their default values. -/
theorem map_instances_no_sharing :
    readFieldC heapMut evH.2 "event_id" 8 = some (Cv.cint (-1))
    ∧ readFieldC heapMut evH.2 "tels_with_data" 8 = some (Cv.carr [])
    ∧ (match recFieldAddr heapMut evH.2 "sub" with
       | some sa => readFieldC heapMut sa "junk" 8
       | none => none) = some (Cv.cstr "nothing")
    ∧ (match mapEntryAddr heapMut telAddr 10 with
       | some t => readFieldC heapMut t "image" 8
       | none => none) = some (Cv.carr (List.replicate 10 0))
    ∧ (match mapEntryAddr heapMut telAddr 42 with
       | some t => readFieldC heapMut t "image" 8
       | none => none) = some (Cv.carr (List.replicate 10 0))
    ∧ (match mapEntryAddr heapMut telAddr 5 with
       | some t => readFieldC heapMut t "image" 8
       | none => none) = some (Cv.carr (List.replicate 10 9))
    ∧ (match mapEntryAddr heapMut telAddr 5 with
       | some t => readFieldC heapMut t "tel_id" 8
       | none => none) = some (Cv.cint (-1)) :=
  ⟨rfl, rfl, rfl, rfl, rfl, rfl, rfl⟩

end Cta
